import Mathlib

/-!
Verification of `b2sdk/sync/scan_policies.py`.

Python strings are modelled as `List Char`.  The Python `re` module is
modelled by a small regular-expression language covering the fragment the
scan policies rely on: literal characters, backslash escapes of
non-alphanumeric characters, `.` (any character except newline), the `$`
end-of-string assertion (which in Python also matches just before a trailing
newline), and the `*` repetition with its lazy variant `*?`.  Other
metacharacters are rejected at compile time, as Python rejects `(` for
example.  `re.match` semantics — the pattern must match starting at index 0
but need not consume the whole string — are given by a Brzozowski-derivative
matcher that threads the remaining input so the `$` assertion can see
whether it stands at the end of the whole string.
-/

namespace B2

/-- Abstract syntax of the supported regular-expression fragment.
`dot` is Python `.` (any character but `'\n'`); `dollar` is the `$`
assertion; `alt` only arises internally from derivatives. -/
inductive Regex : Type where
  | fail : Regex
  | eps : Regex
  | char : Char → Regex
  | dot : Regex
  | dollar : Regex
  | alt : Regex → Regex → Regex
  | cat : Regex → Regex → Regex
  | star : Regex → Regex
deriving DecidableEq, Repr

/-- Metacharacters the modelled fragment does not support as literals:
compiling a pattern containing one of these unescaped is an error
(Python likewise errors on `(`, `)`, `[`, a leading `*`, …). -/
def metaChar (c : Char) : Bool :=
  c = '*' || c = '+' || c = '?' || c = '(' || c = ')' || c = '[' || c = ']' ||
  c = Char.ofNat 123 || c = Char.ofNat 125 || c = '|' || c = '^'

/-- The atom denoted by a single unescaped non-meta character. -/
def atomOf (c : Char) : Regex :=
  if c = '.' then Regex.dot else if c = '$' then Regex.dollar else Regex.char c

/-- Recursive-descent parser for the supported fragment; the accumulator
holds the (left-nested) concatenation parsed so far.  Models `re.compile`:
`Except.error` is Python's `re.error` (`PatternError`). -/
def parseSeq : List Char → Regex → Except String Regex
  | [], acc => Except.ok acc
  | c :: rest, acc =>
    if c = '\\' then
      match rest with
      | [] => Except.error "bad escape (end of pattern)"
      | e :: rest2 =>
        if e.isAlphanum then Except.error "bad escape"
        else
          match rest2 with
          | [] => parseSeq [] (Regex.cat acc (Regex.char e))
          | c2 :: rest3 =>
            if c2 = '*' then
              match rest3 with
              | [] => parseSeq [] (Regex.cat acc (Regex.star (Regex.char e)))
              | c3 :: rest4 =>
                if c3 = '?' then
                  parseSeq rest4 (Regex.cat acc (Regex.star (Regex.char e)))
                else parseSeq (c3 :: rest4) (Regex.cat acc (Regex.star (Regex.char e)))
            else parseSeq (c2 :: rest3) (Regex.cat acc (Regex.char e))
    else if metaChar c then Except.error "unsupported or misplaced metacharacter"
    else
      match rest with
      | [] => parseSeq [] (Regex.cat acc (atomOf c))
      | c2 :: rest3 =>
        if c2 = '*' then
          match rest3 with
          | [] => parseSeq [] (Regex.cat acc (Regex.star (atomOf c)))
          | c3 :: rest4 =>
            if c3 = '?' then
              parseSeq rest4 (Regex.cat acc (Regex.star (atomOf c)))
            else parseSeq (c3 :: rest4) (Regex.cat acc (Regex.star (atomOf c)))
        else parseSeq (c2 :: rest3) (Regex.cat acc (atomOf c))

/-- `re.compile`: parse a pattern string (as a character list). -/
def compileRegex (pattern : List Char) : Except String Regex :=
  parseSeq pattern Regex.eps

/-- Does `r` match the empty string at a position where the text still to
the right is `rest`?  Only the `$` assertion looks at `rest`: it matches at
the very end, or just before a trailing newline. -/
def nullableAt : Regex → List Char → Bool
  | Regex.fail, _ => false
  | Regex.eps, _ => true
  | Regex.char _, _ => false
  | Regex.dot, _ => false
  | Regex.dollar, rest => decide (rest = []) || decide (rest = ['\n'])
  | Regex.alt a b, rest => nullableAt a rest || nullableAt b rest
  | Regex.cat a b, rest => nullableAt a rest && nullableAt b rest
  | Regex.star _, _ => true

/-- Brzozowski derivative of `r` by the character `c`, where `rest` is the
text to the right of `c` (threaded so assertions keep their global view). -/
def deriv : Regex → Char → List Char → Regex
  | Regex.fail, _, _ => Regex.fail
  | Regex.eps, _, _ => Regex.fail
  | Regex.char a, c, _ => if a = c then Regex.eps else Regex.fail
  | Regex.dot, c, _ => if c = '\n' then Regex.fail else Regex.eps
  | Regex.dollar, _, _ => Regex.fail
  | Regex.alt a b, c, rest => Regex.alt (deriv a c rest) (deriv b c rest)
  | Regex.cat a b, c, rest =>
      if nullableAt a (c :: rest)
      then Regex.alt (Regex.cat (deriv a c rest) b) (deriv b c rest)
      else Regex.cat (deriv a c rest) b
  | Regex.star a, c, rest => Regex.cat (deriv a c rest) (Regex.star a)

/-- `re.match(r, s) is not None`: `r` matches some initial segment of `s`
(matching starts at index 0 but need not consume all of `s`). -/
def pmatch : Regex → List Char → Bool
  | r, [] => nullableAt r []
  | r, c :: rest => nullableAt r (c :: rest) || pmatch (deriv r c rest) rest

/-- Exact-match semantics of the regex fragment: `Accepts r u rest` means
`r` matches exactly the characters `u`, standing at a position of the whole
input where the text after `u` is `rest` (so `dollar` can see whether it is
at the global end or just before a trailing newline). -/
inductive Accepts : Regex → List Char → List Char → Prop where
  | eps (rest : List Char) : Accepts Regex.eps [] rest
  | char (c : Char) (rest : List Char) : Accepts (Regex.char c) [c] rest
  | dot (c : Char) (rest : List Char) : c ≠ '\n' → Accepts Regex.dot [c] rest
  | dollar_end : Accepts Regex.dollar [] []
  | dollar_newline : Accepts Regex.dollar [] ['\n']
  | alt_left (a b : Regex) (u rest : List Char) :
      Accepts a u rest → Accepts (Regex.alt a b) u rest
  | alt_right (a b : Regex) (u rest : List Char) :
      Accepts b u rest → Accepts (Regex.alt a b) u rest
  | cat (a b : Regex) (u v rest : List Char) :
      Accepts a u (v ++ rest) → Accepts b v rest →
      Accepts (Regex.cat a b) (u ++ v) rest
  | star_nil (a : Regex) (rest : List Char) : Accepts (Regex.star a) [] rest
  | star_cons (a : Regex) (u v rest : List Char) :
      Accepts a u (v ++ rest) → Accepts (Regex.star a) v rest →
      Accepts (Regex.star a) (u ++ v) rest

/-- `RegexSet`: holds a (possibly empty) set of compiled regular
expressions and knows how to check whether a string matches any of them. -/
structure RegexSet : Type where
  compiled_list : List Regex
deriving DecidableEq, Repr

/-- `RegexSet.__init__`: `[re.compile(r) for r in regex_iterable]`;
compilation of any pattern may raise `re.error`. -/
def RegexSet.build (regex_iterable : List (List Char)) : Except String RegexSet :=
  (regex_iterable.mapM compileRegex).map RegexSet.mk

/-- `RegexSet.matches`: whether the string matches any of the regular
expressions (`any(c.match(s) is not None for c in self._compiled_list)`). -/
def RegexSet.matches (self : RegexSet) (s : List Char) : Bool :=
  self.compiled_list.any (fun c => pmatch c s)

/-- `convert_dir_regex_to_dir_prefix_regex`: if the directory regex ends in
`'$'`, strip it and append `'/'`; otherwise append `'.*?/'`.  (Python
`dir_regex.endswith('$')` is true exactly when the last character is `'$'`;
`dir_regex[:-1]` drops the last character.) -/
def convert_dir_regex_to_dir_prefix_regex (dir_regex : List Char) : List Char :=
  if dir_regex.getLast? = some '$'
  then dir_regex.dropLast ++ ['/']
  else dir_regex ++ ('.' :: '*' :: '?' :: '/' :: [])

/-- `IntegerRange`: a range of two integers; `none` means −∞ (for `begin`)
or +∞ (for `end`). -/
structure IntegerRange : Type where
  rangeBegin : Option Int
  rangeEnd : Option Int
deriving DecidableEq, Repr

/-- `IntegerRange.__contains__`: `ge_begin` and `le_end` start as `True`
and are refined by the bounds that are present. -/
def IntegerRange.containsItem (self : IntegerRange) (item : Int) : Bool :=
  let ge_begin := match self.rangeBegin with
    | none => true
    | some b => decide (item ≥ b)
  let le_end := match self.rangeEnd with
    | none => true
    | some e => decide (item ≤ e)
  ge_begin && le_end

/-- `ScanPoliciesManager`: policy object used when scanning folders for
syncing, deciding which files to include. -/
structure ScanPoliciesManager : Type where
  exclude_dir_set : RegexSet
  exclude_file_because_of_dir_set : RegexSet
  exclude_file_set : RegexSet
  include_file_set : RegexSet
  exclude_all_symlinks : Bool
  include_mod_time_range : IntegerRange
deriving DecidableEq, Repr

/-- `ScanPoliciesManager.__init__`: builds the four regex sets (the
dir-as-file set maps `convert_dir_regex_to_dir_prefix_regex` over the
directory regexes) and the retained-modification-time range; a pattern
that fails to compile raises, so the whole construction fails. -/
def ScanPoliciesManager.build
    (exclude_dir_regexes : List (List Char) := [])
    (exclude_file_regexes : List (List Char) := [])
    (include_file_regexes : List (List Char) := [])
    (exclude_all_symlinks : Bool := false)
    (exclude_modified_before : Option Int := none)
    (exclude_modified_after : Option Int := none) :
    Except String ScanPoliciesManager := do
  let exclude_dir_set ← RegexSet.build exclude_dir_regexes
  let exclude_file_because_of_dir_set ←
    RegexSet.build (exclude_dir_regexes.map convert_dir_regex_to_dir_prefix_regex)
  let exclude_file_set ← RegexSet.build exclude_file_regexes
  let include_file_set ← RegexSet.build include_file_regexes
  Except.ok
    { exclude_dir_set := exclude_dir_set
      exclude_file_because_of_dir_set := exclude_file_because_of_dir_set
      exclude_file_set := exclude_file_set
      include_file_set := include_file_set
      exclude_all_symlinks := exclude_all_symlinks
      include_mod_time_range :=
        ⟨exclude_modified_before, exclude_modified_after⟩ }

/-- `should_exclude_file`: excluded when the path falls under an excluded
directory, or matches an exclude-file regex without matching an
include-file regex. -/
def ScanPoliciesManager.should_exclude_file
    (self : ScanPoliciesManager) (file_path : List Char) : Bool :=
  let exclude_because_of_dir := self.exclude_file_because_of_dir_set.matches file_path
  let exclude_because_of_file :=
    self.exclude_file_set.matches file_path &&
    !(self.include_file_set.matches file_path)
  exclude_because_of_dir || exclude_because_of_file

/-- `should_exclude_file_version`: excluded when the modification time is
not in the retained range. -/
def ScanPoliciesManager.should_exclude_file_version
    (self : ScanPoliciesManager) (mod_time_millis : Int) : Bool :=
  !(self.include_mod_time_range.containsItem mod_time_millis)

/-- `should_exclude_directory`: excluded when the directory path matches an
exclude-directory regex. -/
def ScanPoliciesManager.should_exclude_directory
    (self : ScanPoliciesManager) (dir_path : List Char) : Bool :=
  self.exclude_dir_set.matches dir_path

/-- `DEFAULT_SCAN_MANAGER = ScanPoliciesManager()`: the construction with
all-default arguments compiles no pattern, so it cannot fail; this is its
result. -/
def DEFAULT_SCAN_MANAGER : ScanPoliciesManager :=
  { exclude_dir_set := ⟨[]⟩
    exclude_file_because_of_dir_set := ⟨[]⟩
    exclude_file_set := ⟨[]⟩
    include_file_set := ⟨[]⟩
    exclude_all_symlinks := false
    include_mod_time_range := ⟨none, none⟩ }

/-- A character the parser treats as a plain literal: not a metacharacter,
not a backslash, and not one of the two special atoms `.` and `$`. -/
def plainChar (c : Char) : Bool :=
  !(metaChar c) && !(decide (c = '\\')) && !(decide (c = '.')) && !(decide (c = '$'))

/-- Left-nested concatenation of literal characters onto `acc`, mirroring
the shape the parser's accumulator takes on a plain literal word. -/
def catChars (acc : Regex) (w : List Char) : Regex :=
  w.foldl (fun r c => Regex.cat r (Regex.char c)) acc

/-- The policy `ScanPoliciesManager.build [['a']] [] [] false none none`
produces (used to exercise directory exclusion on concrete inputs). -/
def policyLitA : ScanPoliciesManager :=
  { exclude_dir_set := ⟨[Regex.cat Regex.eps (Regex.char 'a')]⟩
    exclude_file_because_of_dir_set :=
      ⟨[Regex.cat (Regex.cat (Regex.cat Regex.eps (Regex.char 'a'))
          (Regex.star Regex.dot)) (Regex.char '/')]⟩
    exclude_file_set := ⟨[]⟩
    include_file_set := ⟨[]⟩
    exclude_all_symlinks := false
    include_mod_time_range := ⟨none, none⟩ }

/-- The policy `ScanPoliciesManager.build [[]] [] [] false none none`
produces: its only exclude-directory pattern is the empty string. -/
def policyEmptyDirPattern : ScanPoliciesManager :=
  { exclude_dir_set := ⟨[Regex.eps]⟩
    exclude_file_because_of_dir_set :=
      ⟨[Regex.cat (Regex.cat Regex.eps (Regex.star Regex.dot)) (Regex.char '/')]⟩
    exclude_file_set := ⟨[]⟩
    include_file_set := ⟨[]⟩
    exclude_all_symlinks := false
    include_mod_time_range := ⟨none, none⟩ }

/-- A regex accepting the empty string at a position is nullable there. -/
theorem accepts_nil_of_nullableAt :
    ∀ (r : Regex) (rest : List Char), nullableAt r rest = true → Accepts r [] rest := by
  intro r
  induction r with
  | fail => intro rest h; simp [nullableAt] at h
  | eps => intro rest _; exact Accepts.eps rest
  | char c => intro rest h; simp [nullableAt] at h
  | dot => intro rest h; simp [nullableAt] at h
  | dollar =>
      intro rest h
      simp only [nullableAt, Bool.or_eq_true, decide_eq_true_eq] at h
      cases h with
      | inl h => subst h; exact Accepts.dollar_end
      | inr h => subst h; exact Accepts.dollar_newline
  | alt a b iha ihb =>
      intro rest h
      simp only [nullableAt, Bool.or_eq_true] at h
      cases h with
      | inl h => exact Accepts.alt_left a b [] rest (iha rest h)
      | inr h => exact Accepts.alt_right a b [] rest (ihb rest h)
  | cat a b iha ihb =>
      intro rest h
      simp only [nullableAt, Bool.and_eq_true] at h
      have := Accepts.cat a b [] [] rest (iha rest h.1) (ihb rest h.2)
      simpa using this
  | star a _ => intro rest _; exact Accepts.star_nil a rest

/-- Conversely, accepting the empty string implies nullability. -/
theorem nullableAt_of_accepts_nil :
    ∀ {r : Regex} {u rest : List Char}, Accepts r u rest → u = [] →
      nullableAt r rest = true := by
  intro r u rest h
  induction h with
  | eps rest => intro _; rfl
  | char c rest => intro h; cases h
  | dot c rest _ => intro h; cases h
  | dollar_end => intro _; rfl
  | dollar_newline => intro _; rfl
  | alt_left a b u rest _ ih =>
      intro hu; simp only [nullableAt, Bool.or_eq_true]; exact Or.inl (ih hu)
  | alt_right a b u rest _ ih =>
      intro hu; simp only [nullableAt, Bool.or_eq_true]; exact Or.inr (ih hu)
  | cat a b u v rest _ _ iha ihb =>
      intro hu
      rcases List.append_eq_nil.mp hu with ⟨h1, h2⟩
      subst h1; subst h2
      simp only [nullableAt, Bool.and_eq_true]
      exact ⟨iha rfl, ihb rfl⟩
  | star_nil a rest => intro _; rfl
  | star_cons a u v rest _ _ _ _ => intro _; rfl

/-- Inversion for `star`: a non-empty match splits off a non-empty first
iteration. -/
theorem accepts_star_split :
    ∀ {r : Regex} {w t : List Char}, Accepts r w t → ∀ {a : Regex},
      r = Regex.star a →
      w = [] ∨ ∃ u v, w = u ++ v ∧ u ≠ [] ∧ Accepts a u (v ++ t) ∧
        Accepts (Regex.star a) v t := by
  intro r w t h
  induction h with
  | eps rest => intro a ha; cases ha
  | char c rest => intro a ha; cases ha
  | dot c rest _ => intro a ha; cases ha
  | dollar_end => intro a ha; cases ha
  | dollar_newline => intro a ha; cases ha
  | alt_left a b u rest _ _ => intro a' ha; cases ha
  | alt_right a b u rest _ _ => intro a' ha; cases ha
  | cat a b u v rest _ _ _ _ => intro a' ha; cases ha
  | star_nil a rest => intro a' ha; exact Or.inl rfl
  | star_cons a u v rest h1 h2 _ ih2 =>
      intro a' ha
      injection ha with haa
      subst haa
      cases u with
      | nil =>
          simpa using ih2 rfl
      | cons c u' =>
          exact Or.inr ⟨c :: u', v, rfl, by simp, h1, h2⟩

/-- Correctness of the context-threading derivative: consuming `c` and then
matching `u` exactly is the same as matching `c :: u` exactly. -/
theorem accepts_deriv_iff :
    ∀ (r : Regex) (c : Char) (u t : List Char),
      Accepts (deriv r c (u ++ t)) u t ↔ Accepts r (c :: u) t := by
  intro r
  induction r with
  | fail =>
      intro c u t
      exact ⟨(fun h => by cases h), (fun h => by cases h)⟩
  | eps =>
      intro c u t
      exact ⟨(fun h => by cases h), (fun h => by cases h)⟩
  | char a =>
      intro c u t
      by_cases hac : a = c
      · subst hac
        simp only [deriv, if_pos rfl]
        constructor
        · intro h; cases h; exact Accepts.char a t
        · intro h; cases h; exact Accepts.eps t
      · simp only [deriv, if_neg hac]
        constructor
        · intro h; cases h
        · intro h; cases h; exact absurd rfl hac
  | dot =>
      intro c u t
      by_cases hc : c = '\n'
      · subst hc
        simp only [deriv, if_pos rfl]
        constructor
        · intro h; cases h
        · intro h
          cases h with
          | dot _ _ hne => exact absurd rfl hne
      · simp only [deriv, if_neg hc]
        constructor
        · intro h; cases h; exact Accepts.dot c t hc
        · intro h; cases h; exact Accepts.eps t
  | dollar =>
      intro c u t
      exact ⟨(fun h => by cases h), (fun h => by cases h)⟩
  | alt a b iha ihb =>
      intro c u t
      simp only [deriv]
      constructor
      · intro h
        cases h with
        | alt_left _ _ _ _ h =>
            exact Accepts.alt_left a b (c :: u) t ((iha c u t).mp h)
        | alt_right _ _ _ _ h =>
            exact Accepts.alt_right a b (c :: u) t ((ihb c u t).mp h)
      · intro h
        cases h with
        | alt_left _ _ _ _ h =>
            exact Accepts.alt_left _ _ u t ((iha c u t).mpr h)
        | alt_right _ _ _ _ h =>
            exact Accepts.alt_right _ _ u t ((ihb c u t).mpr h)
  | cat a b iha ihb =>
      intro c u t
      constructor
      · intro h
        simp only [deriv] at h
        split at h
        case isTrue hn =>
          cases h with
          | alt_left _ _ _ _ h =>
              cases h with
              | cat _ _ u1 u2 _ h1 h2 =>
                  rw [List.append_assoc] at h1
                  have ha := (iha c u1 (u2 ++ t)).mp h1
                  have := Accepts.cat a b (c :: u1) u2 t ha h2
                  simpa using this
          | alt_right _ _ _ _ h =>
              have hb := (ihb c u t).mp h
              have ha0 := accepts_nil_of_nullableAt a (c :: (u ++ t)) hn
              exact Accepts.cat a b [] (c :: u) t ha0 hb
        case isFalse hn =>
          cases h with
          | cat _ _ u1 u2 _ h1 h2 =>
              rw [List.append_assoc] at h1
              have ha := (iha c u1 (u2 ++ t)).mp h1
              have := Accepts.cat a b (c :: u1) u2 t ha h2
              simpa using this
      · intro h
        generalize hw : c :: u = w at h
        cases h with
        | cat _ _ u1 u2 _ h1 h2 =>
            cases u1 with
            | nil =>
                simp only [List.nil_append] at hw
                subst hw
                have hn : nullableAt a (c :: (u ++ t)) = true := by
                  have := nullableAt_of_accepts_nil h1 rfl
                  simpa using this
                simp only [deriv, hn, if_pos]
                exact Accepts.alt_right _ _ u t ((ihb c u t).mpr h2)
            | cons c1 u1' =>
                rw [List.cons_append] at hw
                injection hw with hc hu
                subst hc
                subst hu
                have hd := (iha c u1' (u2 ++ t)).mpr h1
                by_cases hn : nullableAt a (c :: ((u1' ++ u2) ++ t)) = true
                · simp only [deriv, hn, if_pos]
                  apply Accepts.alt_left
                  rw [List.append_assoc]
                  exact Accepts.cat _ b u1' u2 t hd h2
                · simp only [deriv, hn, if_neg, Bool.false_eq_true,
                    not_false_eq_true]
                  rw [List.append_assoc]
                  exact Accepts.cat _ b u1' u2 t hd h2
  | star a iha =>
      intro c u t
      simp only [deriv]
      constructor
      · intro h
        cases h with
        | cat _ _ u1 u2 _ h1 h2 =>
            rw [List.append_assoc] at h1
            have ha := (iha c u1 (u2 ++ t)).mp h1
            have := Accepts.star_cons a (c :: u1) u2 t ha h2
            simpa using this
      · intro h
        rcases accepts_star_split h rfl with hnil | ⟨u1, u2, hw, hne, h1, h2⟩
        · exact absurd hnil (List.cons_ne_nil c u)
        · cases u1 with
          | nil => exact absurd rfl hne
          | cons c1 u1' =>
              rw [List.cons_append] at hw
              injection hw with hc hu
              subst hc
              subst hu
              have hd := (iha c u1' (u2 ++ t)).mpr h1
              rw [List.append_assoc]
              exact Accepts.cat _ (Regex.star a) u1' u2 t hd h2

/-- `pmatch` is exactly "some initial segment is accepted". -/
theorem pmatch_iff :
    ∀ (s : List Char) (r : Regex),
      pmatch r s = true ↔ ∃ u t, s = u ++ t ∧ Accepts r u t := by
  intro s
  induction s with
  | nil =>
      intro r
      simp only [pmatch]
      constructor
      · intro h
        exact ⟨[], [], rfl, accepts_nil_of_nullableAt r [] h⟩
      · rintro ⟨u, t, heq, hacc⟩
        rcases List.append_eq_nil.mp heq.symm with ⟨hu, ht⟩
        subst hu; subst ht
        exact nullableAt_of_accepts_nil hacc rfl
  | cons c s' ih =>
      intro r
      simp only [pmatch, Bool.or_eq_true]
      constructor
      · intro h
        cases h with
        | inl h => exact ⟨[], c :: s', rfl, accepts_nil_of_nullableAt r (c :: s') h⟩
        | inr h =>
            rcases (ih (deriv r c s')).mp h with ⟨u, t, heq, hacc⟩
            subst heq
            exact ⟨c :: u, t, rfl, (accepts_deriv_iff r c u t).mp hacc⟩
      · rintro ⟨u, t, heq, hacc⟩
        cases u with
        | nil =>
            simp only [List.nil_append] at heq
            subst heq
            exact Or.inl (nullableAt_of_accepts_nil hacc rfl)
        | cons c1 u' =>
            rw [List.cons_append] at heq
            injection heq with hc hu
            subst hc
            refine Or.inr ((ih (deriv r c s')).mpr ⟨u', t, hu, ?_⟩)
            rw [hu]
            exact (accepts_deriv_iff r c u' t).mpr hacc

/-- One parser step on a plain literal character not followed by `*`. -/
theorem parseSeq_plain_step (c : Char) (rest : List Char) (acc : Regex)
    (hc : plainChar c = true) (hrest : ∀ r', rest ≠ '*' :: r') :
    parseSeq (c :: rest) acc = parseSeq rest (Regex.cat acc (Regex.char c)) := by
  simp only [plainChar, Bool.and_eq_true, Bool.not_eq_true', decide_eq_false_iff_not] at hc
  obtain ⟨⟨⟨hmeta, hbs⟩, hdot⟩, hdollar⟩ := hc
  have hatom : atomOf c = Regex.char c := by
    simp [atomOf, hdot, hdollar]
  cases rest with
  | nil =>
      rw [parseSeq.eq_def]
      simp [hbs, hmeta, hatom]
  | cons c2 rest3 =>
      have hc2 : ¬(c2 = '*') := by
        intro h; exact hrest rest3 (by rw [h])
      rw [parseSeq.eq_def]
      simp [hbs, hmeta, hatom, hc2]

/-- The parser folds a plain literal word into left-nested concatenation
(provided what follows does not start with a repetition operator). -/
theorem parseSeq_plain_word :
    ∀ (w rest : List Char) (acc : Regex), (∀ c ∈ w, plainChar c = true) →
      (∀ r', rest ≠ '*' :: r') →
      parseSeq (w ++ rest) acc = parseSeq rest (catChars acc w) := by
  intro w
  induction w with
  | nil => intro rest acc _ _; rfl
  | cons c w' ih =>
      intro rest acc hw hrest
      have hc : plainChar c = true := hw c (List.mem_cons_self c w')
      have hw' : ∀ c' ∈ w', plainChar c' = true :=
        fun c' hc' => hw c' (List.mem_cons_of_mem c hc')
      have hnext : ∀ r', w' ++ rest ≠ '*' :: r' := by
        intro r' h
        cases w' with
        | nil => exact hrest r' h
        | cons c1 w'' =>
            rw [List.cons_append] at h
            injection h with h1 _
            have := hw' c1 (List.mem_cons_self c1 w'')
            rw [h1] at this
            simp [plainChar, metaChar] at this
      rw [List.cons_append, parseSeq_plain_step c (w' ++ rest) acc hc hnext]
      rw [ih rest (Regex.cat acc (Regex.char c)) hw' hrest]
      rfl

/-- Compiling a plain literal word yields the literal concatenation. -/
theorem compileRegex_plain_word (w : List Char) (hw : ∀ c ∈ w, plainChar c = true) :
    compileRegex w = Except.ok (catChars Regex.eps w) := by
  have := parseSeq_plain_word w [] Regex.eps hw (by intro r' h; cases h)
  rw [List.append_nil] at this
  exact this

/-- A plain literal word never ends in `$`, so the directory-to-file
transform appends `.*?/`. -/
theorem convert_plain_word (w : List Char) (hw : ∀ c ∈ w, plainChar c = true) :
    convert_dir_regex_to_dir_prefix_regex w = w ++ ('.' :: '*' :: '?' :: '/' :: []) := by
  unfold convert_dir_regex_to_dir_prefix_regex
  cases h : w.getLast? with
  | none => simp [h]
  | some c =>
      have hcm : c ∈ w := by
        have hmem : c ∈ w.getLast? := by rw [h]; rfl
        obtain ⟨hne, hx⟩ := List.mem_getLast?_eq_getLast hmem
        rw [hx]
        exact List.getLast_mem hne
      have := hw c hcm
      simp only [plainChar, Bool.and_eq_true, Bool.not_eq_true',
        decide_eq_false_iff_not] at this
      simp [h, this.2]

/-- Compiling the transform of a plain literal word. -/
theorem compileRegex_plain_transform (w : List Char)
    (hw : ∀ c ∈ w, plainChar c = true) :
    compileRegex (convert_dir_regex_to_dir_prefix_regex w) =
      Except.ok (Regex.cat (Regex.cat (catChars Regex.eps w) (Regex.star Regex.dot))
        (Regex.char '/')) := by
  rw [convert_plain_word w hw]
  unfold compileRegex
  rw [parseSeq_plain_word w ('.' :: '*' :: '?' :: '/' :: []) Regex.eps hw
    (by intro r' h; injection h with h1 _; cases h1)]
  simp [parseSeq, atomOf, metaChar]

/-- Inversion for concatenation with a single literal on the right. -/
theorem accepts_cat_char_iff (a : Regex) (c : Char) (v t : List Char) :
    Accepts (Regex.cat a (Regex.char c)) v t ↔
      ∃ u, v = u ++ [c] ∧ Accepts a u (c :: t) := by
  constructor
  · intro h
    cases h with
    | cat _ _ u1 u2 _ h1 h2 =>
        cases h2
        exact ⟨u1, rfl, h1⟩
  · rintro ⟨u, hv, hu⟩
    subst hv
    exact Accepts.cat a (Regex.char c) u [c] t hu (Accepts.char c t)

/-- What the literal concatenation accepts. -/
theorem accepts_catChars_iff :
    ∀ (w : List Char) (acc : Regex) (v t : List Char),
      Accepts (catChars acc w) v t ↔
        ∃ v1, v = v1 ++ w ∧ Accepts acc v1 (w ++ t) := by
  intro w
  induction w with
  | nil =>
      intro acc v t
      simp [catChars]
  | cons c w' ih =>
      intro acc v t
      have hstep : catChars acc (c :: w') = catChars (Regex.cat acc (Regex.char c)) w' := rfl
      rw [hstep, ih]
      constructor
      · rintro ⟨v1, hv, hacc⟩
        rcases (accepts_cat_char_iff acc c v1 (w' ++ t)).mp hacc with ⟨u, hv1, hu⟩
        subst hv1
        refine ⟨u, ?_, hu⟩
        rw [hv, List.append_assoc]
        rfl
      · rintro ⟨v1, hv, hacc⟩
        refine ⟨v1 ++ [c], ?_, ?_⟩
        · rw [hv, List.append_assoc]; rfl
        · exact (accepts_cat_char_iff acc c (v1 ++ [c]) (w' ++ t)).mpr ⟨v1, rfl, hacc⟩

/-- Starting from `eps`, the literal concatenation accepts exactly `w`. -/
theorem accepts_catChars_eps_iff (w v t : List Char) :
    Accepts (catChars Regex.eps w) v t ↔ v = w := by
  rw [accepts_catChars_iff]
  constructor
  · rintro ⟨v1, hv, hacc⟩
    cases hacc
    exact hv
  · intro hv
    exact ⟨[], by simpa using hv, Accepts.eps (w ++ t)⟩

/-- `.*` (star of dot) accepts any newline-free chunk. -/
theorem accepts_star_dot (u : List Char) (t : List Char) (hu : '\n' ∉ u) :
    Accepts (Regex.star Regex.dot) u t := by
  induction u with
  | nil => exact Accepts.star_nil Regex.dot t
  | cons c u' ih =>
      have hc : c ≠ '\n' := fun h => hu (by rw [h]; exact List.mem_cons_self _ _)
      have hu' : '\n' ∉ u' := fun h => hu (List.mem_cons_of_mem c h)
      have := Accepts.star_cons Regex.dot [c] u' t
        (Accepts.dot c (u' ++ t) hc) (ih hu')
      simpa using this

/-- The compiled transform of a plain word matches any file path that
extends a matched directory by `/` and a suffix (for a newline-free
remainder of the directory part). -/
theorem pmatch_transformed (w t0 s : List Char) (ht0 : '\n' ∉ t0) :
    pmatch (Regex.cat (Regex.cat (catChars Regex.eps w) (Regex.star Regex.dot))
        (Regex.char '/')) ((w ++ t0) ++ '/' :: s) = true := by
  apply (pmatch_iff _ _).mpr
  refine ⟨(w ++ t0) ++ ['/'], s, by simp, ?_⟩
  apply (accepts_cat_char_iff _ '/' _ s).mpr
  refine ⟨w ++ t0, rfl, ?_⟩
  have h1 : Accepts (catChars Regex.eps w) w (t0 ++ '/' :: s) :=
    (accepts_catChars_eps_iff w w (t0 ++ '/' :: s)).mpr rfl
  have h2 : Accepts (Regex.star Regex.dot) t0 ('/' :: s) := accepts_star_dot t0 _ ht0
  exact Accepts.cat _ _ w t0 ('/' :: s) h1 h2

/-- Computation rule for `Except` bind on a success. -/
theorem except_bind_ok {α β ε : Type} (r : α) (f : α → Except ε β) :
    (Except.ok r >>= f) = f r := rfl

/-- Computation rule for `Except` bind on a failure. -/
theorem except_bind_error {α β ε : Type} (e : ε) (f : α → Except ε β) :
    ((Except.error e : Except ε α) >>= f) = Except.error e := rfl

/-- If every pattern of `l`, transformed by `g`, compiles to the regex
`f` assigns it, then compiling the transformed list succeeds. -/
theorem mapM_compileRegex_map_ok (g : List Char → List Char) (f : List Char → Regex) :
    ∀ (l : List (List Char)), (∀ w ∈ l, compileRegex (g w) = Except.ok (f w)) →
      (l.map g).mapM compileRegex = Except.ok (l.map f) := by
  intro l
  induction l with
  | nil => intro _; rfl
  | cons a l ih =>
      intro h
      have ha := h a (List.mem_cons_self a l)
      have hl := ih (fun w hw => h w (List.mem_cons_of_mem a hw))
      rw [List.map_cons, List.mapM_cons, ha, except_bind_ok, hl, except_bind_ok]
      rfl

/-- If some pattern in the list fails to compile, the whole `mapM` fails. -/
theorem mapM_compileRegex_error :
    ∀ (l : List (List Char)) (q : List Char), q ∈ l →
      (∃ e, compileRegex q = Except.error e) →
      ∃ e, l.mapM compileRegex = Except.error e := by
  intro l
  induction l with
  | nil => intro q hq; cases hq
  | cons a l ih =>
      intro q hq he
      rcases List.mem_cons.mp hq with h | h
      · subst h
        rcases he with ⟨e, he⟩
        refine ⟨e, ?_⟩
        rw [List.mapM_cons, he, except_bind_error]
      · cases hca : compileRegex a with
        | error e' =>
            refine ⟨e', ?_⟩
            rw [List.mapM_cons, hca, except_bind_error]
        | ok r =>
            rcases ih q h he with ⟨e'', he''⟩
            refine ⟨e'', ?_⟩
            rw [List.mapM_cons, hca, except_bind_ok, he'', except_bind_error]

/-- If compiling a list of patterns succeeds, every pattern compiled to
some regex that is in the result. -/
theorem mapM_compileRegex_mem :
    ∀ (l : List (List Char)) (rs : List Regex),
      l.mapM compileRegex = Except.ok rs →
      ∀ q ∈ l, ∃ r, compileRegex q = Except.ok r ∧ r ∈ rs := by
  intro l
  induction l with
  | nil => intro rs _ q hq; cases hq
  | cons a l ih =>
      intro rs h q hq
      rw [List.mapM_cons] at h
      cases hca : compileRegex a with
      | error e => rw [hca, except_bind_error] at h; cases h
      | ok r =>
          rw [hca, except_bind_ok] at h
          cases hml : l.mapM compileRegex with
          | error e => rw [hml, except_bind_error] at h; cases h
          | ok rs' =>
              rw [hml, except_bind_ok] at h
              have hrs : rs = r :: rs' := by
                have : (Except.ok (r :: rs') : Except String (List Regex)) =
                    Except.ok rs := h
                injection this with h'
                exact h'.symm
              subst hrs
              rcases List.mem_cons.mp hq with h' | h'
              · subst h'
                exact ⟨r, hca, List.mem_cons_self r rs'⟩
              · rcases ih rs' hml q h' with ⟨r', hr', hm⟩
                exact ⟨r', hr', List.mem_cons_of_mem r hm⟩

/-- C1: for every policy and file path, `should_exclude_file` returns
exactly `DirAsFileSet.matches(f) or (FileExcludeSet.matches(f) and not
FileIncludeSet.matches(f))`; in particular `"logs/app.keep"` is excluded
under `exclude_dir_regexes=["logs"]` even though it matches the include
pattern `".*\.keep$"`, and `"keep.tmp"` is not excluded under
`exclude_file_regexes=[".*\.tmp$"]` because it matches the include pattern
`"keep\..*"`. -/
theorem claim_C1 :
    (∀ (p : ScanPoliciesManager) (f : List Char),
      p.should_exclude_file f =
        (p.exclude_file_because_of_dir_set.matches f ||
          (p.exclude_file_set.matches f && !(p.include_file_set.matches f)))) ∧
    (ScanPoliciesManager.build ["logs".toList] [] [".*\\.keep$".toList]).map
        (fun p => p.should_exclude_file "logs/app.keep".toList) = Except.ok true ∧
    (RegexSet.build [".*\\.keep$".toList]).map
        (fun rs => rs.matches "logs/app.keep".toList) = Except.ok true ∧
    (ScanPoliciesManager.build [] [".*\\.tmp$".toList] ["keep\\..*".toList]).map
        (fun p => p.should_exclude_file "keep.tmp".toList) = Except.ok false ∧
    (RegexSet.build [".*\\.tmp$".toList]).map
        (fun rs => rs.matches "keep.tmp".toList) = Except.ok true :=
  ⟨fun _ _ => rfl, rfl, rfl, rfl, rfl⟩

/-- C2: the directory-pattern transform strips a trailing `$` and appends
`/`, and otherwise appends `.*?/`; consequently the transform of `photos`
matches `photos/kitten.jpg` and `photos2/puppy.jpg` but not `photos.txt`,
and the transform of `photos$` matches `photos/kitten.jpg` but neither
`photos2/puppy.jpg` nor `photos.txt`. -/
theorem claim_C2 :
    (∀ (P : List Char),
      convert_dir_regex_to_dir_prefix_regex P =
        (if P.getLast? = some '$' then P.dropLast ++ ['/']
         else P ++ ('.' :: '*' :: '?' :: '/' :: []))) ∧
    (compileRegex (convert_dir_regex_to_dir_prefix_regex "photos".toList)).map
        (fun r => pmatch r "photos/kitten.jpg".toList) = Except.ok true ∧
    (compileRegex (convert_dir_regex_to_dir_prefix_regex "photos".toList)).map
        (fun r => pmatch r "photos2/puppy.jpg".toList) = Except.ok true ∧
    (compileRegex (convert_dir_regex_to_dir_prefix_regex "photos".toList)).map
        (fun r => pmatch r "photos.txt".toList) = Except.ok false ∧
    (compileRegex (convert_dir_regex_to_dir_prefix_regex "photos$".toList)).map
        (fun r => pmatch r "photos/kitten.jpg".toList) = Except.ok true ∧
    (compileRegex (convert_dir_regex_to_dir_prefix_regex "photos$".toList)).map
        (fun r => pmatch r "photos2/puppy.jpg".toList) = Except.ok false ∧
    (compileRegex (convert_dir_regex_to_dir_prefix_regex "photos$".toList)).map
        (fun r => pmatch r "photos.txt".toList) = Except.ok false :=
  ⟨fun _ => rfl, rfl, rfl, rfl, rfl, rfl, rfl⟩

/-- C3: a `RegexSet` matches `s` exactly when some regex of the set accepts
an initial segment of `s` (matching starts at index 0 and need not consume
the whole string), and the set built from no patterns matches nothing. -/
theorem claim_C3 :
    (∀ (rs : RegexSet) (s : List Char),
      rs.matches s = true ↔
        ∃ r ∈ rs.compiled_list, ∃ u t, s = u ++ t ∧ Accepts r u t) ∧
    RegexSet.build [] = Except.ok ⟨[]⟩ ∧
    (∀ s : List Char, (RegexSet.mk []).matches s = false) := by
  refine ⟨?_, rfl, fun s => rfl⟩
  intro rs s
  simp only [RegexSet.matches, List.any_eq_true]
  constructor
  · rintro ⟨r, hr, hm⟩
    exact ⟨r, hr, (pmatch_iff s r).mp hm⟩
  · rintro ⟨r, hr, h⟩
    exact ⟨r, hr, (pmatch_iff s r).mpr h⟩

/-- C4: `should_exclude_file_version` is the negation of inclusive window
membership — `(lower absent or t ≥ lower) and (upper absent or t ≤ upper)`
— and with both bounds absent nothing is excluded. -/
theorem claim_C4 :
    (∀ (p : ScanPoliciesManager) (lo hi : Option Int) (t : Int),
      ({ p with include_mod_time_range := ⟨lo, hi⟩ }
          : ScanPoliciesManager).should_exclude_file_version t =
        !((decide (∀ b ∈ lo, b ≤ t)) && (decide (∀ e ∈ hi, t ≤ e)))) ∧
    (∀ (p : ScanPoliciesManager) (t : Int),
      ({ p with include_mod_time_range := ⟨none, none⟩ }
          : ScanPoliciesManager).should_exclude_file_version t = false) := by
  constructor
  · intro p lo hi t
    cases lo <;> cases hi <;>
      simp [ScanPoliciesManager.should_exclude_file_version,
        IntegerRange.containsItem, ge_iff_le]
  · intro p t
    rfl

/-- C8: the all-default policy is available as the ready-made constant
`DEFAULT_SCAN_MANAGER`, and it excludes no file, no directory and no
modification time. -/
theorem claim_C8 :
    ScanPoliciesManager.build [] [] [] false none none =
      Except.ok DEFAULT_SCAN_MANAGER ∧
    (∀ f : List Char, DEFAULT_SCAN_MANAGER.should_exclude_file f = false) ∧
    (∀ d : List Char, DEFAULT_SCAN_MANAGER.should_exclude_directory d = false) ∧
    (∀ t : Int, DEFAULT_SCAN_MANAGER.should_exclude_file_version t = false) :=
  ⟨rfl, fun _ => rfl, fun _ => rfl, fun _ => rfl⟩

/-- If some pattern fails to compile, building the `RegexSet` fails. -/
theorem regexSet_build_error (l : List (List Char)) (q : List Char)
    (hq : q ∈ l) (he : ∃ e, compileRegex q = Except.error e) :
    ∃ e, RegexSet.build l = Except.error e := by
  rcases mapM_compileRegex_error l q hq he with ⟨e, hml⟩
  refine ⟨e, ?_⟩
  unfold RegexSet.build
  rw [hml]
  rfl

/-- C6: if any supplied pattern string fails to compile, `ScanPoliciesManager`
construction fails with the error (no partially built policy value exists —
the result is an `error`, not an `ok`); `"("` is such a pattern. -/
theorem claim_C6 :
    (∀ (dirs files incs : List (List Char)) (b : Bool) (lo hi : Option Int),
      ((∃ q ∈ dirs, ∃ e, compileRegex q = Except.error e) ∨
       (∃ q ∈ files, ∃ e, compileRegex q = Except.error e) ∨
       (∃ q ∈ incs, ∃ e, compileRegex q = Except.error e)) →
      ∃ e, ScanPoliciesManager.build dirs files incs b lo hi = Except.error e) ∧
    compileRegex "(".toList =
      Except.error "unsupported or misplaced metacharacter" := by
  constructor
  · intro dirs files incs b lo hi h
    unfold ScanPoliciesManager.build
    rcases h with ⟨q, hq, he⟩ | ⟨q, hq, he⟩ | ⟨q, hq, he⟩
    · rcases regexSet_build_error dirs q hq he with ⟨e, hde⟩
      exact ⟨e, by rw [hde, except_bind_error]⟩
    · cases h1 : RegexSet.build dirs with
      | error e => exact ⟨e, rfl⟩
      | ok s1 =>
          cases h2 : RegexSet.build
              (dirs.map convert_dir_regex_to_dir_prefix_regex) with
          | error e => exact ⟨e, rfl⟩
          | ok s2 =>
              rcases regexSet_build_error files q hq he with ⟨e, hfe⟩
              exact ⟨e, by rw [hfe]; rfl⟩
    · cases h1 : RegexSet.build dirs with
      | error e => exact ⟨e, rfl⟩
      | ok s1 =>
          cases h2 : RegexSet.build
              (dirs.map convert_dir_regex_to_dir_prefix_regex) with
          | error e => exact ⟨e, rfl⟩
          | ok s2 =>
              cases h3 : RegexSet.build files with
              | error e => exact ⟨e, rfl⟩
              | ok s3 =>
                  rcases regexSet_build_error incs q hq he with ⟨e, hie⟩
                  exact ⟨e, by rw [hie]; rfl⟩
  · rfl

/-- C6 witness: construction from the invalid pattern `"("` fails. -/
theorem claim_C6_witness :
    ∃ e, ScanPoliciesManager.build ["(".toList] [] [] false none none =
      Except.error e :=
  claim_C6.1 ["(".toList] [] [] false none none
    (Or.inl ⟨"(".toList, List.mem_singleton.mpr rfl,
      ⟨"unsupported or misplaced metacharacter", rfl⟩⟩)

/-- C7: a window with both bounds present and lower > upper excludes every
modification time, and construction does not reject the inverted bounds. -/
theorem claim_C7 (lo hi : Int) (hlt : hi < lo) :
    (∃ p, ScanPoliciesManager.build [] [] [] false (some lo) (some hi) =
        Except.ok p ∧ ∀ t : Int, p.should_exclude_file_version t = true) ∧
    (∀ (p : ScanPoliciesManager) (t : Int),
      p.include_mod_time_range = ⟨some lo, some hi⟩ →
      p.should_exclude_file_version t = true) := by
  have key : ∀ (p : ScanPoliciesManager) (t : Int),
      p.include_mod_time_range = ⟨some lo, some hi⟩ →
      p.should_exclude_file_version t = true := by
    intro p t hr
    simp [ScanPoliciesManager.should_exclude_file_version, hr,
      IntegerRange.containsItem]
    omega
  exact ⟨⟨{ DEFAULT_SCAN_MANAGER with include_mod_time_range := ⟨some lo, some hi⟩ },
    rfl, fun t => key _ t rfl⟩, key⟩

/-- C7 witness: the inverted window `[2, 1]` excludes the time 0 and its
construction succeeds. -/
theorem claim_C7_witness :
    ((1 : Int) < 2) ∧
    ((∃ p, ScanPoliciesManager.build [] [] [] false (some 2) (some 1) =
        Except.ok p ∧ ∀ t : Int, p.should_exclude_file_version t = true) ∧
     (∀ (p : ScanPoliciesManager) (t : Int),
       p.include_mod_time_range = ⟨some 2, some 1⟩ →
       p.should_exclude_file_version t = true)) :=
  ⟨by norm_num, claim_C7 2 1 (by norm_num)⟩

/-- C9: the symlink flag is stored verbatim, construction is oblivious to
it up to that stored field, and none of the three decision operations
depends on it. -/
theorem claim_C9 :
    (∀ (dirs files incs : List (List Char)) (lo hi : Option Int) (b : Bool)
       (p : ScanPoliciesManager),
      ScanPoliciesManager.build dirs files incs b lo hi = Except.ok p →
      p.exclude_all_symlinks = b) ∧
    (∀ (dirs files incs : List (List Char)) (lo hi : Option Int) (b1 b2 : Bool),
      ScanPoliciesManager.build dirs files incs b2 lo hi =
        (ScanPoliciesManager.build dirs files incs b1 lo hi).map
          (fun p => { p with exclude_all_symlinks := b2 })) ∧
    (∀ (p : ScanPoliciesManager) (b : Bool) (f d : List Char) (t : Int),
      ({ p with exclude_all_symlinks := b }
          : ScanPoliciesManager).should_exclude_file f = p.should_exclude_file f ∧
      ({ p with exclude_all_symlinks := b }
          : ScanPoliciesManager).should_exclude_directory d =
        p.should_exclude_directory d ∧
      ({ p with exclude_all_symlinks := b }
          : ScanPoliciesManager).should_exclude_file_version t =
        p.should_exclude_file_version t) := by
  refine ⟨?_, ?_, fun p b f d t => ⟨rfl, rfl, rfl⟩⟩
  · intro dirs files incs lo hi b p h
    unfold ScanPoliciesManager.build at h
    cases h1 : RegexSet.build dirs with
    | error e => rw [h1, except_bind_error] at h; cases h
    | ok s1 =>
        rw [h1, except_bind_ok] at h
        cases h2 : RegexSet.build
            (dirs.map convert_dir_regex_to_dir_prefix_regex) with
        | error e => rw [h2, except_bind_error] at h; cases h
        | ok s2 =>
            rw [h2, except_bind_ok] at h
            cases h3 : RegexSet.build files with
            | error e => rw [h3, except_bind_error] at h; cases h
            | ok s3 =>
                rw [h3, except_bind_ok] at h
                cases h4 : RegexSet.build incs with
                | error e => rw [h4, except_bind_error] at h; cases h
                | ok s4 =>
                    rw [h4, except_bind_ok] at h
                    injection h with hp
                    rw [← hp]
  · intro dirs files incs lo hi b1 b2
    unfold ScanPoliciesManager.build
    cases h1 : RegexSet.build dirs with
    | error e => rfl
    | ok s1 =>
        cases h2 : RegexSet.build
            (dirs.map convert_dir_regex_to_dir_prefix_regex) with
        | error e => rfl
        | ok s2 =>
            cases h3 : RegexSet.build files with
            | error e => rfl
            | ok s3 =>
                cases h4 : RegexSet.build incs with
                | error e => rfl
                | ok s4 => rfl

/-- C9 witness: building with the flag set stores it, leaving the default
policy otherwise. -/
theorem claim_C9_witness :
    ScanPoliciesManager.build [] [] [] true none none =
      Except.ok { DEFAULT_SCAN_MANAGER with exclude_all_symlinks := true } ∧
    ({ DEFAULT_SCAN_MANAGER with exclude_all_symlinks := true }
        : ScanPoliciesManager).exclude_all_symlinks = true :=
  ⟨rfl, claim_C9.1 [] [] [] none none true _ rfl⟩

/-- C5 counterexample: with the single exclude-directory pattern `"a"`,
the directory `"a\nb"` is excluded (the pattern matches its first
character), yet the file `"a\nb/x"` under it is not excluded, because `.`
in the transformed pattern `"a.*?/"` cannot cross the newline. -/
theorem claim_C5_counterexample :
    ScanPoliciesManager.build [['a']] [] [] false none none =
      Except.ok policyLitA ∧
    policyLitA.should_exclude_directory ('a' :: '\n' :: 'b' :: []) = true ∧
    policyLitA.should_exclude_file
      ('a' :: '\n' :: 'b' :: '/' :: 'x' :: []) = false :=
  ⟨rfl, rfl, rfl⟩

/-- C5 (amended): for a policy built from exclude-directory patterns that
are plain literal words (no metacharacter, backslash, `.` or `$`), every
file path under an excluded newline-free directory is itself excluded by
`should_exclude_file`. -/
theorem claim_C5 :
    ∀ (dirs files incs : List (List Char)) (b : Bool) (lo hi : Option Int)
      (p : ScanPoliciesManager),
      ScanPoliciesManager.build dirs files incs b lo hi = Except.ok p →
      (∀ w ∈ dirs, ∀ c ∈ w, plainChar c = true) →
      ∀ (d : List Char), '\n' ∉ d → p.should_exclude_directory d = true →
      ∀ (s : List Char), p.should_exclude_file (d ++ '/' :: s) = true := by
  intro dirs files incs b lo hi p hbuild hplain d hnl hdir s
  have hdirset : RegexSet.build dirs =
      Except.ok ⟨dirs.map (catChars Regex.eps)⟩ := by
    unfold RegexSet.build
    have hm := mapM_compileRegex_map_ok id (catChars Regex.eps) dirs
      (fun w hw => compileRegex_plain_word w (hplain w hw))
    rw [List.map_id] at hm
    rw [hm]
    rfl
  have htrans : RegexSet.build (dirs.map convert_dir_regex_to_dir_prefix_regex) =
      Except.ok ⟨dirs.map (fun w =>
        Regex.cat (Regex.cat (catChars Regex.eps w) (Regex.star Regex.dot))
          (Regex.char '/'))⟩ := by
    unfold RegexSet.build
    rw [mapM_compileRegex_map_ok convert_dir_regex_to_dir_prefix_regex _ dirs
      (fun w hw => compileRegex_plain_transform w (hplain w hw))]
    rfl
  unfold ScanPoliciesManager.build at hbuild
  rw [hdirset, except_bind_ok, htrans, except_bind_ok] at hbuild
  cases hf : RegexSet.build files with
  | error e => rw [hf, except_bind_error] at hbuild; cases hbuild
  | ok s3 =>
      rw [hf, except_bind_ok] at hbuild
      cases hinc : RegexSet.build incs with
      | error e => rw [hinc, except_bind_error] at hbuild; cases hbuild
      | ok s4 =>
          rw [hinc, except_bind_ok] at hbuild
          injection hbuild with hp
          subst hp
          simp only [ScanPoliciesManager.should_exclude_directory,
            RegexSet.matches, List.any_eq_true] at hdir
          rcases hdir with ⟨r, hrmem, hrmatch⟩
          rcases List.mem_map.mp hrmem with ⟨w, hw, hrw⟩
          subst hrw
          rcases (pmatch_iff d _).mp hrmatch with ⟨u, t, hd, hacc⟩
          have hu : u = w := (accepts_catChars_eps_iff w u t).mp hacc
          subst hu
          have hnt : '\n' ∉ t := fun hmem =>
            hnl (by rw [hd]; exact List.mem_append_right u hmem)
          simp only [ScanPoliciesManager.should_exclude_file, RegexSet.matches,
            List.any_eq_true, Bool.or_eq_true]
          refine Or.inl ⟨_, List.mem_map_of_mem _ hw, ?_⟩
          rw [hd]
          exact pmatch_transformed u t s hnt

/-- C5 witness: with pattern `"a"`, directory `"a"` is excluded and so is
the file `"a/x"`. -/
theorem claim_C5_witness :
    policyLitA.should_exclude_file ('a' :: '/' :: 'x' :: []) = true :=
  claim_C5 [['a']] [] [] false none none policyLitA rfl (by decide)
    ('a' :: []) (by decide) rfl ('x' :: [])

/-- C10 counterexample: with the empty string as exclude-directory pattern,
`"a\n/x"` contains a `/` but is not excluded, because `.` in the
transformed pattern `".*?/"` cannot cross the newline before the `/`. -/
theorem claim_C10_counterexample :
    ScanPoliciesManager.build [[]] [] [] false none none =
      Except.ok policyEmptyDirPattern ∧
    '/' ∈ ('a' :: '\n' :: '/' :: 'x' :: []) ∧
    policyEmptyDirPattern.should_exclude_file
      ('a' :: '\n' :: '/' :: 'x' :: []) = false :=
  ⟨rfl, by decide, rfl⟩

/-- C10 (amended): if the empty string is an exclude-directory pattern of a
successfully built policy, every directory is excluded, and so is every
file path containing a `/` preceded only by non-newline characters. -/
theorem claim_C10 :
    ∀ (dirs files incs : List (List Char)) (b : Bool) (lo hi : Option Int)
      (p : ScanPoliciesManager),
      ScanPoliciesManager.build dirs files incs b lo hi = Except.ok p →
      [] ∈ dirs →
      (∀ d : List Char, p.should_exclude_directory d = true) ∧
      (∀ u v : List Char, '\n' ∉ u →
        p.should_exclude_file (u ++ '/' :: v) = true) := by
  intro dirs files incs b lo hi p hbuild hmem
  unfold ScanPoliciesManager.build at hbuild
  cases h1 : RegexSet.build dirs with
  | error e => rw [h1, except_bind_error] at hbuild; cases hbuild
  | ok s1 =>
      rw [h1, except_bind_ok] at hbuild
      cases h2 : RegexSet.build
          (dirs.map convert_dir_regex_to_dir_prefix_regex) with
      | error e => rw [h2, except_bind_error] at hbuild; cases hbuild
      | ok s2 =>
          rw [h2, except_bind_ok] at hbuild
          cases h3 : RegexSet.build files with
          | error e => rw [h3, except_bind_error] at hbuild; cases hbuild
          | ok s3 =>
              rw [h3, except_bind_ok] at hbuild
              cases h4 : RegexSet.build incs with
              | error e => rw [h4, except_bind_error] at hbuild; cases hbuild
              | ok s4 =>
                  rw [h4, except_bind_ok] at hbuild
                  injection hbuild with hp
                  subst hp
                  constructor
                  · intro d
                    have hs1 : dirs.mapM compileRegex =
                        Except.ok s1.compiled_list := by
                      unfold RegexSet.build at h1
                      cases hm : dirs.mapM compileRegex with
                      | error e => rw [hm] at h1; cases h1
                      | ok rs =>
                          rw [hm] at h1
                          injection h1 with h1'
                          rw [← h1']
                    rcases mapM_compileRegex_mem dirs s1.compiled_list hs1 []
                        hmem with ⟨r, hr, hrmem⟩
                    have hre : r = Regex.eps := by
                      have h0 : compileRegex [] = Except.ok Regex.eps := rfl
                      rw [h0] at hr
                      injection hr with h'
                      exact h'.symm
                    subst hre
                    simp only [ScanPoliciesManager.should_exclude_directory,
                      RegexSet.matches, List.any_eq_true]
                    refine ⟨Regex.eps, hrmem, ?_⟩
                    cases d with
                    | nil => rfl
                    | cons c d' => rfl
                  · intro u v hnl
                    have hs2 : (dirs.map convert_dir_regex_to_dir_prefix_regex).mapM
                        compileRegex = Except.ok s2.compiled_list := by
                      unfold RegexSet.build at h2
                      cases hm : (dirs.map convert_dir_regex_to_dir_prefix_regex).mapM
                          compileRegex with
                      | error e => rw [hm] at h2; cases h2
                      | ok rs =>
                          rw [hm] at h2
                          injection h2 with h2'
                          rw [← h2']
                    rcases mapM_compileRegex_mem _ s2.compiled_list hs2
                        (convert_dir_regex_to_dir_prefix_regex [])
                        (List.mem_map_of_mem _ hmem) with ⟨r, hr, hrmem⟩
                    have hre : r = Regex.cat (Regex.cat Regex.eps
                        (Regex.star Regex.dot)) (Regex.char '/') := by
                      have h0 : compileRegex (convert_dir_regex_to_dir_prefix_regex []) =
                          Except.ok (Regex.cat (Regex.cat Regex.eps
                            (Regex.star Regex.dot)) (Regex.char '/')) := rfl
                      rw [h0] at hr
                      injection hr with h'
                      exact h'.symm
                    subst hre
                    simp only [ScanPoliciesManager.should_exclude_file,
                      RegexSet.matches, List.any_eq_true, Bool.or_eq_true]
                    refine Or.inl ⟨_, hrmem, ?_⟩
                    exact pmatch_transformed [] u v hnl

/-- C10 witness: with the empty exclude-directory pattern, `"d"` is
excluded as a directory and `"a/x"` is excluded as a file. -/
theorem claim_C10_witness :
    policyEmptyDirPattern.should_exclude_directory ('d' :: []) = true ∧
    policyEmptyDirPattern.should_exclude_file ('a' :: '/' :: 'x' :: []) = true :=
  ⟨(claim_C10 [[]] [] [] false none none policyEmptyDirPattern rfl
      (List.mem_singleton.mpr rfl)).1 ('d' :: []),
   (claim_C10 [[]] [] [] false none none policyEmptyDirPattern rfl
      (List.mem_singleton.mpr rfl)).2 ('a' :: []) ('x' :: []) (by decide)⟩

end B2
